import Mathlib

/-!
Verification of the semVersie versioning tool (TypeScript sources) against its
natural-language specification.  The TypeScript modules are shallowly embedded:
JavaScript numbers that hold integers are modelled as `Int` (exact below 2^53,
which covers every value these functions manipulate), strings as Lean `String`,
`undefined`-able values as `Option`, and thrown validation errors as `Except`.
JavaScript truthiness on optional strings (`undefined` and `""` are falsy) is
made explicit through `jsTruthy`.
-/

namespace SemVersie

/-- ASCII decimal digit, the regex class `[0-9]`. -/
def isDigitCh (c : Char) : Bool := '0' ≤ c && c ≤ '9'

/-- The regex class `[1-9]`. -/
def isPosDigitCh (c : Char) : Bool := '1' ≤ c && c ≤ '9'

/-- The regex class `[0-9a-zA-Z-]` used by semver prerelease/build identifiers. -/
def isIdentCh (c : Char) : Bool :=
  isDigitCh c || ('a' ≤ c && c ≤ 'z') || ('A' ≤ c && c ≤ 'Z') || c = '-'

/-- Numeric value of a digit character. -/
def digitVal (c : Char) : Nat := c.toNat - '0'.toNat

/-- Value of a string of decimal digits, i.e. `parseInt(s, 10)` / `Number(s)`
on an all-digit string. -/
def digitsToNat (cs : List Char) : Nat :=
  cs.foldl (fun acc c => acc * 10 + digitVal c) 0

/-- Decimal digits of a natural number, most significant first: the characters
JavaScript produces for `${n}` when `n` is a non-negative integer. -/
def natDigits (n : Nat) : List Char :=
  if _h : n < 10 then [Char.ofNat ('0'.toNat + n)]
  else natDigits (n / 10) ++ [Char.ofNat ('0'.toNat + n % 10)]
decreasing_by
  exact Nat.div_lt_self (by omega) (by omega)

/-- Decimal rendering of an integer, as JavaScript template interpolation
prints an integral number. -/
def intToString (i : Int) : String :=
  if i < 0 then "-" ++ ⟨natDigits i.natAbs⟩ else ⟨natDigits i.natAbs⟩

/-- JavaScript truthiness of a `string | undefined` value: `undefined` and the
empty string are falsy. -/
def jsTruthy : Option String → Bool
  | none => false
  | some s => !s.data.isEmpty

/-- The string carried by an optional value (`""` when absent). -/
def optStr : Option String → String
  | none => ""
  | some s => s

/-- Whether `pat` occurs as a contiguous substring of `s`
(JavaScript `s.includes(pat)`). -/
def listContains (s pat : List Char) : Bool :=
  match s with
  | [] => pat.isEmpty
  | _ :: rest => pat.isPrefixOf s || listContains rest pat

/-- JavaScript `s.includes(pat)`. -/
def strContains (s pat : String) : Bool := listContains s.data pat.data

/-- JavaScript `<` on strings restricted to the identifiers compared here:
lexicographic order on code points. -/
def listLt : List Char → List Char → Bool
  | _, [] => false
  | [], _ :: _ => true
  | a :: as, b :: bs => if a < b then true else if b < a then false else listLt as bs

/-- JavaScript string comparison `a < b`. -/
def jsStrLt (a b : String) : Bool := listLt a.data b.data

/-- ASCII lower-casing of a character (JavaScript `toLowerCase` on the ASCII
range, the only characters relevant to the `rc` scan). -/
def lowerCh (c : Char) : Char :=
  if 'A' ≤ c && c ≤ 'Z' then Char.ofNat (c.toNat + 32) else c

/-- JavaScript `s.toLowerCase()` on ASCII data. -/
def strToLower (s : String) : String := ⟨s.data.map lowerCh⟩

end SemVersie

namespace SemVersie

/-! ## Version model (src/semver.ts) -/

/-- `enum Impact { NOIMPACT, PATCH, MINOR, MAJOR }`. -/
inductive Impact where
  | NOIMPACT
  | PATCH
  | MINOR
  | MAJOR
deriving DecidableEq, Repr

/-- The numeric value TypeScript assigns to each `Impact` member. -/
def Impact.val : Impact → Nat
  | .NOIMPACT => 0
  | .PATCH => 1
  | .MINOR => 2
  | .MAJOR => 3

/-- The reverse enum mapping `Impact[i]`, used in log and warning text. -/
def Impact.name : Impact → String
  | .NOIMPACT => "NOIMPACT"
  | .PATCH => "PATCH"
  | .MINOR => "MINOR"
  | .MAJOR => "MAJOR"

/-- The `SemanticVersion` class fields.  `major`, `minor`, `patch` are
JavaScript numbers (integral in every use, hence `Int`); the two metadata
fields are `string | undefined`. -/
structure SemanticVersion where
  major : Int
  minor : Int
  patch : Int
  prerelease : Option String := none
  buildmetadata : Option String := none
deriving DecidableEq, Repr

/-- JavaScript `split` with a single-character separator, on character lists:
`"a.b".split "."` is `["a","b"]`, `"".split "."` is `[""]`. -/
def splitOnCh (sep : Char) : List Char → List (List Char)
  | [] => [[]]
  | c :: rest =>
    if c = sep then [] :: splitOnCh sep rest
    else
      match splitOnCh sep rest with
      | [] => [[c]]
      | g :: gs => (c :: g) :: gs

/-- One dot-separated prerelease identifier:
regex `(?:0|[1-9]\d*|\d*[a-zA-Z-][0-9a-zA-Z-]*)`, i.e. a nonempty string of
`[0-9a-zA-Z-]` characters that, when fully numeric, has no leading zero. -/
def isPrereleaseIdentL : List Char → Bool
  | [] => false
  | c :: rest =>
    (c :: rest).all isIdentCh &&
      (if (c :: rest).all isDigitCh then c ≠ '0' || rest.isEmpty else true)

/-- The prerelease grammar `prerelease_re` from the constructor: one or more
valid identifiers separated by dots. -/
def validPrereleaseL (cs : List Char) : Bool :=
  (splitOnCh '.' cs).all isPrereleaseIdentL

/-- `prerelease_re` on strings. -/
def validPrerelease (s : String) : Bool := validPrereleaseL s.data

/-- One build-metadata identifier: regex `[0-9a-zA-Z-]+`. -/
def isBuildIdentL (cs : List Char) : Bool :=
  !cs.isEmpty && cs.all isIdentCh

/-- The build-metadata grammar `buildmetadata_re` from the constructor. -/
def validBuildmetadataL (cs : List Char) : Bool :=
  (splitOnCh '.' cs).all isBuildIdentL

/-- `buildmetadata_re` on strings. -/
def validBuildmetadata (s : String) : Bool := validBuildmetadataL s.data

/-- The `SemanticVersion` constructor: stores the fields, then throws when a
truthy prerelease fails `prerelease_re` or a truthy buildmetadata fails
`buildmetadata_re` (falsy values — `undefined` or `""` — skip the check). -/
def SemanticVersion.make (major minor patch : Int)
    (prerelease : Option String := none) (buildmetadata : Option String := none) :
    Except String SemanticVersion :=
  if jsTruthy prerelease && !validPrerelease (optStr prerelease) then
    .error ("Invalid prerelease format: " ++ optStr prerelease)
  else if jsTruthy buildmetadata && !validBuildmetadata (optStr buildmetadata) then
    .error ("Invalid build metadata format: " ++ optStr buildmetadata)
  else
    .ok ⟨major, minor, patch, prerelease, buildmetadata⟩

/-- `toString()`: `major.minor.patch`, then `-prerelease` and `+buildmetadata`
when those fields are truthy. -/
def SemanticVersion.render (v : SemanticVersion) : String :=
  intToString v.major ++ "." ++ intToString v.minor ++ "." ++ intToString v.patch
    ++ (if jsTruthy v.prerelease then "-" ++ optStr v.prerelease else "")
    ++ (if jsTruthy v.buildmetadata then "+" ++ optStr v.buildmetadata else "")

/-- `as_tag()`: `v` prefix plus `toString()`. -/
def SemanticVersion.as_tag (v : SemanticVersion) : String := "v" ++ v.render

/-- Numeral grammar `(?:0|[1-9]\d*)`: a nonempty digit run with no leading
zero (unless it is exactly `0`). -/
def numeralOk : List Char → Bool
  | [] => false
  | c :: rest => (c :: rest).all isDigitCh && (c ≠ '0' || rest.isEmpty)

/-- Split a character list at its first `'+'`, if any; the semver regex places
the build-metadata part after the single `'+'` and no earlier grammar element
may contain one. -/
def splitAtPlus : List Char → List Char × Option (List Char)
  | [] => ([], none)
  | c :: rest =>
    if c = '+' then ([], some rest)
    else
      let r := splitAtPlus rest
      (c :: r.1, r.2)

/-- What remains of the semver regex beyond `major.minor.patch`: nothing, a
`-prerelease` (with the prerelease slice running to the first `'+'`, after
which the build-metadata slice must satisfy its grammar), or a
`+buildmetadata`; anything else fails. -/
def parseTail (base : SemanticVersion) : List Char → Option SemanticVersion
  | [] => some base
  | '-' :: r6 =>
    let pb := splitAtPlus r6
    if !validPrereleaseL pb.1 then none
    else
      match pb.2 with
      | none => some { base with prerelease := some ⟨pb.1⟩ }
      | some bcs =>
        if validBuildmetadataL bcs then
          some { base with prerelease := some ⟨pb.1⟩, buildmetadata := some ⟨bcs⟩ }
        else none
  | '+' :: r6 =>
    if validBuildmetadataL r6 then some { base with buildmetadata := some ⟨r6⟩ }
    else none
  | _ => none

/-- Core of `SemanticVersion.parse` after the optional leading `v`.  It embeds
the anchored semver regex
`^(0|[1-9]\d*)\.(0|[1-9]\d*)\.(0|[1-9]\d*)(?:-(prerelease))?(?:\+(build))?$`:
each numeral is forced to be the maximal digit run (the following character is
a non-digit; greedy matching with this regex is deterministic), then
`parseTail` handles the metadata.  On success the fields are set exactly as
the source does: `parseInt` on the numerals, the raw matched slices for the
metadata, assigned only when nonempty — which matched slices always are. -/
def parseCore (cs : List Char) : Option SemanticVersion :=
  let ds1 := cs.takeWhile isDigitCh
  let r1 := cs.dropWhile isDigitCh
  if !numeralOk ds1 then none else
  match r1 with
  | '.' :: r2 =>
    let ds2 := r2.takeWhile isDigitCh
    let r3 := r2.dropWhile isDigitCh
    if !numeralOk ds2 then none else
    match r3 with
    | '.' :: r4 =>
      let ds3 := r4.takeWhile isDigitCh
      let r5 := r4.dropWhile isDigitCh
      if !numeralOk ds3 then none else
      parseTail
        ⟨(digitsToNat ds1 : Int), (digitsToNat ds2 : Int), (digitsToNat ds3 : Int),
          none, none⟩ r5
    | _ => none
  | _ => none

/-- Consume the optional leading `v` of the semver regex (a leading `v` must
be taken by `v?`, since the major numeral cannot start with it). -/
def stripLeadV : List Char → List Char
  | [] => []
  | c :: rest => if c = 'v' then rest else c :: rest

/-- `SemanticVersion.parse`: the anchored semver regex with an optional
leading `v`. -/
def SemanticVersion.parse (version : String) : Option SemanticVersion :=
  parseCore (stripLeadV version.data)

/-- `/^[0-9]+$/.test(s)`: the numeric-identifier test inside `compare`. -/
def isNumericIdentL (cs : List Char) : Bool :=
  !cs.isEmpty && cs.all isDigitCh

/-- The identifier loop of `SemanticVersion.compare`: walk both dot-split
identifier lists; an exhausted side sorts lower; two numeric identifiers
compare by value; a numeric identifier sorts below an alphanumeric one; two
distinct alphanumeric identifiers compare as JavaScript strings. -/
def cmpParts : List (List Char) → List (List Char) → Int
  | [], [] => 0
  | [], _ :: _ => -1
  | _ :: _, [] => 1
  | ap :: as, bp :: bs =>
    let an := isNumericIdentL ap
    let bn := isNumericIdentL bp
    if an && bn then
      let ai := digitsToNat ap
      let bi := digitsToNat bp
      if ai ≠ bi then (if bi < ai then 1 else -1) else cmpParts as bs
    else if an && !bn then -1
    else if !an && bn then 1
    else if ap ≠ bp then (if listLt bp ap then 1 else -1)
    else cmpParts as bs

/-- `SemanticVersion.compare(a, b)`: numeric triple first, then
release-beats-prerelease, then the identifier loop. -/
def SemanticVersion.compare (a b : SemanticVersion) : Int :=
  if a.major ≠ b.major then (if b.major < a.major then 1 else -1)
  else if a.minor ≠ b.minor then (if b.minor < a.minor then 1 else -1)
  else if a.patch ≠ b.patch then (if b.patch < a.patch then 1 else -1)
  else
    match jsTruthy a.prerelease, jsTruthy b.prerelease with
    | false, false => 0
    | false, true => 1
    | true, false => -1
    | true, true =>
      cmpParts (splitOnCh '.' (optStr a.prerelease).data)
        (splitOnCh '.' (optStr b.prerelease).data)

/-- The first match of `/rc(?:\.|-|_)?(\d+)/i` in a character list: scan left
to right for a case-insensitive `rc`, optionally followed by one of `. - _`,
then a nonempty digit run; return the value of that (maximal) digit run.
(When a separator is present but no digit follows it, the position fails — the
separator itself is not a digit — and scanning resumes one character later,
exactly as regex backtracking does.) -/
def rcExtract : List Char → Option Nat
  | [] => none
  | c :: rest =>
    match rest with
    | [] => none
    | c2 :: rest2 =>
      if lowerCh c = 'r' && lowerCh c2 = 'c' then
        let rest3 :=
          match rest2 with
          | s :: t => if s = '.' || s = '-' || s = '_' then t else rest2
          | [] => []
        let ds := rest3.takeWhile isDigitCh
        if !ds.isEmpty then some (digitsToNat ds) else rcExtract rest
      else rcExtract rest

/-- The per-tag work of the `nextRcIndex` loop body: parse the tag name, keep
it when it shares `base`'s numeric triple and carries a (truthy) prerelease,
and extract the ordinal of its `rc<digits>` marker, if any. -/
def rcOrdinalOf (base : SemanticVersion) (name : String) : Option Nat :=
  match SemanticVersion.parse name with
  | none => none
  | some parsed =>
    if parsed.major = base.major && parsed.minor = base.minor &&
        parsed.patch = base.patch && jsTruthy parsed.prerelease then
      rcExtract (optStr parsed.prerelease).data
    else none

/-- One iteration of the `nextRcIndex` loop: raise `maxRc` to the tag's
ordinal when one was extracted and it is larger. -/
def nextRcStep (base : SemanticVersion) (maxRc : Int) (name : String) : Int :=
  match rcOrdinalOf base name with
  | some n => if maxRc < (n : Int) then (n : Int) else maxRc
  | none => maxRc

/-- `SemanticVersion.nextRcIndex(base, tagNames)`: fold the loop body over the
tag names with the accumulator starting at `-1`, and return `max + 1`. -/
def SemanticVersion.nextRcIndex (base : SemanticVersion) (tagNames : List String) : Int :=
  (tagNames.foldl (nextRcStep base) (-1)) + 1

/-! ## Packaging-format converter (src/pep440.ts) -/

/-- The result of `version.match(pep440)` in `parse_pep440`.  The `pep440`
regex literal carries the global `g` flag, and a `String.match` call with a
global regex returns a bare array of the matched substrings: such an array has
no `groups` property.  The regex itself is unanchored and its only mandatory
element is the `release` group `[0-9]+` (every other segment is optional), so
a match exists exactly when the input contains a decimal digit.  Only the
success/failure of the match is consulted by the caller, so the array contents
are not reproduced here. -/
def pep440GlobalMatch (version : String) : Option (List String) :=
  if version.data.any isDigitCh then some [] else none

/-- `parse_pep440(version)`: because the regex is global, the returned match
array never has a `groups` property, so the guard
`if (!match || !match.groups) return undefined` fires on every input and the
destructuring of the named groups below it is unreachable. -/
def parse_pep440 (version : String) : Option SemanticVersion :=
  match pep440GlobalMatch version with
  | none => none
  | some _ => none

/-! ## Commit impact classifier (src/conventional_commits.ts)

Two revisions of this module are present in the tree; the one embedded here is
the newer one (it returns a `ParsedCommitInfo` and draws its type table from
`src/types.ts`, both of which exist in the current tree and are what
`src/main.ts` consumes).  The older revision differs: it consulted the body
before the title and let the `!` marker override an unrecognised type. -/

/-- `ParsedCommitInfo` from src/types.ts. -/
structure ParsedCommitInfo where
  type : String
  impact : Impact
deriving DecidableEq, Repr

/-- `TypeToImpactMapping` from src/types.ts: the object literal's ten own
entries, as a partial lookup.  The source's membership test
`type in TypeToImpactMapping` is not simply `(TypeToImpactMapping t).isSome`:
the JavaScript `in` operator traverses the prototype chain, so names the
literal inherits from `Object.prototype` also pass — that full semantics is
`typeToImpactLookup` below. -/
def TypeToImpactMapping (t : String) : Option Impact :=
  if t = "docs" then some .NOIMPACT
  else if t = "style" then some .NOIMPACT
  else if t = "test" then some .NOIMPACT
  else if t = "chore" then some .NOIMPACT
  else if t = "build" then some .NOIMPACT
  else if t = "ci" then some .NOIMPACT
  else if t = "refactor" then some .PATCH
  else if t = "fix" then some .PATCH
  else if t = "perf" then some .PATCH
  else if t = "feat" then some .MINOR
  else none

/-- The regex word class `\w`. -/
def isWordCh (c : Char) : Bool :=
  isDigitCh c || ('a' ≤ c && c ≤ 'z') || ('A' ≤ c && c ≤ 'Z') || c = '_'

/-- The JavaScript regex class `\s`. -/
def jsWhitespaceCh (c : Char) : Bool :=
  c = ' ' || ('\u0009' ≤ c && c ≤ '\u000d') || c = '\u00a0' || c = '\u1680' ||
    ('\u2000' ≤ c && c ≤ '\u200a') || c = '\u2028' || c = '\u2029' ||
    c = '\u202f' || c = '\u205f' || c = '\u3000' || c = '\ufeff'

/-- The characters the regex `.` does not match (no `s` flag). -/
def jsLineTerminator (c : Char) : Bool :=
  c = '\n' || c = '\r' || c = '\u2028' || c = '\u2029'

/-- The anchored title regex
`^(?<type>\w+)(?:\((?<scope>[^)]+)\))?(?<breaking>!)?:\s*(?<description>.*)$`,
returning the `type` token and whether the `!` marker is present.  Each step
is forced: `\w+` must take the maximal word run (what follows must be `(`,
`!` or `:`, none a word character); a scope attempt happens only on `(` and
runs to the first `)`; the trailing `\s*.*$` succeeds exactly when what
follows the maximal whitespace run after `:` contains no line terminator. -/
def titleMatch (title : String) : Option (String × Bool) :=
  let cs := title.data
  let tok := cs.takeWhile isWordCh
  let r1 := cs.dropWhile isWordCh
  if tok.isEmpty then none
  else
    let afterScope : Option (List Char) :=
      match r1 with
      | '(' :: r2 =>
        let sc := r2.takeWhile (fun c => c ≠ ')')
        let r3 := r2.dropWhile (fun c => c ≠ ')')
        match r3 with
        | ')' :: r4 => if sc.isEmpty then none else some r4
        | _ => none
      | _ => some r1
    match afterScope with
    | none => none
    | some r4 =>
      let br := match r4 with
        | '!' :: r => (true, r)
        | _ => (false, r4)
      match br.2 with
      | ':' :: r6 =>
        if (r6.dropWhile jsWhitespaceCh).any jsLineTerminator then none
        else some (⟨tok⟩, br.1)
      | _ => none

/-- `ParseConventionalTitle(title)` under the module's declared types
(`ParsedCommitInfo.impact: Impact`): match the grammar, reject a type token
that is not an own key of `TypeToImpactMapping`, then apply the type's base
impact, forced to `MAJOR` by the breaking marker.  The untyped runtime also
lets inherited `Object.prototype` names through the `in` check;
`ParseConventionalTitleFull` below embeds that full semantics. -/
def ParseConventionalTitle (title : String) : Option ParsedCommitInfo :=
  match titleMatch title with
  | none => none
  | some (tok, breaking) =>
    match TypeToImpactMapping tok with
    | none => none
    | some base => some ⟨tok, if breaking then .MAJOR else base⟩

/-- `ParseConventionalBody(body)`: `MAJOR` when the literal substring
`BREAKING CHANGE` occurs, otherwise inconclusive. -/
def ParseConventionalBody (body : String) : Option Impact :=
  if strContains body "BREAKING CHANGE" then some Impact.MAJOR else none

/-- `getConventionalImpact(title, body)` under the declared types: the title
is classified first and its failure is final; a truthy body whose
classification is a (truthy) impact strictly above the title's replaces the
impact, keeping the title's type.  `getConventionalImpactFull` below embeds
the untyped runtime, where a prototype-inherited title impact can occur. -/
def getConventionalImpact (title : String) (body : Option String) : Option ParsedCommitInfo :=
  match ParseConventionalTitle title with
  | none => none
  | some info =>
    if jsTruthy body then
      match ParseConventionalBody (optStr body) with
      | some bodyImpact =>
        if info.impact.val < bodyImpact.val then some ⟨info.type, bodyImpact⟩ else some info
      | none => some info
    else some info

/-! ## The classifier under full JavaScript object semantics

The mapping is a plain object literal, so `type in TypeToImpactMapping` also
succeeds for every property the literal inherits from `Object.prototype`, and
the subsequent read `TypeToImpactMapping[type]` then yields that inherited
member — a function (or, for `__proto__`, the `Object.prototype` object
itself), not a member of the `Impact` enum.  The definitions below embed this
untyped runtime behaviour. -/

/-- The property names a plain object literal inherits from
`Object.prototype` (all of them match the title regex's `\w+` type token). -/
def objectProtoKeys : List String :=
  ["constructor", "hasOwnProperty", "isPrototypeOf", "propertyIsEnumerable",
   "toLocaleString", "toString", "valueOf", "__defineGetter__",
   "__defineSetter__", "__lookupGetter__", "__lookupSetter__", "__proto__"]

/-- A value read from `TypeToImpactMapping[t]` at runtime: a member of the
`Impact` enum for the ten own keys, or the inherited `Object.prototype`
member — a function, or the `Object.prototype` object for `__proto__`; every
such inherited member is truthy and not a number. -/
inductive JsImpact where
  | enumVal (i : Impact)
  | protoMember (name : String)
deriving DecidableEq, Repr

/-- What the source's `ParseConventionalTitle` actually returns at runtime:
the `impact` field is declared `Impact` but can hold an inherited
`Object.prototype` member. -/
structure JsParsedCommitInfo where
  type : String
  impact : JsImpact
deriving DecidableEq, Repr

/-- The chain lookup `TypeToImpactMapping[t]`: an own entry first, else the
inherited `Object.prototype` member, else `undefined`.  On this object the
source's membership test `t in TypeToImpactMapping` succeeds exactly when
this lookup is defined, since no property on the chain holds `undefined`. -/
def typeToImpactLookup (t : String) : Option JsImpact :=
  match TypeToImpactMapping t with
  | some i => some (.enumVal i)
  | none => if objectProtoKeys.contains t then some (.protoMember t) else none

/-- The JavaScript comparison `b > x` for a numeric enum member `b` against a
runtime impact value `x`: ordinary integer comparison when `x` is an enum
member; `false` when `x` is an inherited `Object.prototype` member, since
`ToNumber` of a function — or of `Object.prototype`, whose primitive form is
the string `[object Object]` — is `NaN`, and every `NaN` comparison is
`false`. -/
def jsGtImpact (b : Impact) : JsImpact → Bool
  | .enumVal i => decide (i.val < b.val)
  | .protoMember _ => false

/-- `ParseConventionalTitle(title)` at runtime, `in`-check prototype chain
included: match the grammar, test `type in TypeToImpactMapping` (folded with
the following read into `typeToImpactLookup`, see there), then return the
read value, overwritten by `Impact.MAJOR` when the breaking marker is
present. -/
def ParseConventionalTitleFull (title : String) : Option JsParsedCommitInfo :=
  match titleMatch title with
  | none => none
  | some (tok, breaking) =>
    match typeToImpactLookup tok with
    | none => none
    | some v => some ⟨tok, if breaking then .enumVal .MAJOR else v⟩

/-- `getConventionalImpact(title, body)` at runtime: a title failure is
final; for a truthy body, `body_impact && body_impact > impact.impact`
assigns the body's `MAJOR` only when the numeric comparison against the
stored title impact holds — which it never does when that impact is an
inherited prototype member. -/
def getConventionalImpactFull (title : String) (body : Option String) :
    Option JsParsedCommitInfo :=
  match ParseConventionalTitleFull title with
  | none => none
  | some info =>
    if jsTruthy body then
      match ParseConventionalBody (optStr body) with
      | some bodyImpact =>
        if jsGtImpact bodyImpact info.impact then
          some ⟨info.type, .enumVal bodyImpact⟩
        else some info
      | none => some info
    else some info

/-! ## Aggregate impact resolution (src/main.ts, `getImpactFromGithub`) -/

/-- `ImpactResult` from src/main.ts.  `maxCommitImpact` is typed optional in
TypeScript but the current code always assigns it (defaulting to `NOIMPACT`
when no commit classifies), and the `setFailed` branch guarded by it being
undefined is therefore unreachable, so the embedding makes it total. -/
structure ImpactResult where
  prImpact : Option ParsedCommitInfo
  commitImpacts : List ParsedCommitInfo
  maxCommitImpact : Impact
  finalImpact : Option ParsedCommitInfo
  warning : Option String
deriving DecidableEq, Repr

/-- `Math.max` on the numeric `Impact` enum. -/
def maxImpact (a b : Impact) : Impact := if b.val ≤ a.val then a else b

/-- A title/body pair, the part of a pull request or commit the classifier
reads (the current `getConventionalImpact` receives the whole record and uses
its `title` and `body`). -/
structure ChangeText where
  title : String
  body : Option String
deriving DecidableEq, Repr

/-- The aggregation step of `getImpactFromGithub` from the current
src/main.ts, over the classification results: `max_commit_impact` is the
maximum over the classified commits, `NOIMPACT` when none classifies; a
classified PR always supplies the final impact, with a warning recorded
exactly when its impact differs from `max_commit_impact`; otherwise the first
commit achieving the maximum is used without a warning (or no final impact
exists).  Because `max_commit_impact` is always defined, the final
`core.setFailed` branch of the source is unreachable. -/
def aggregateImpacts (pr_impact : Option ParsedCommitInfo)
    (commit_impacts : List ParsedCommitInfo) : ImpactResult :=
  let max_commit_impact :=
    match commit_impacts with
    | [] => Impact.NOIMPACT
    | c :: cs => (cs.map (·.impact)).foldl maxImpact c.impact
  match pr_impact with
  | some pi =>
    if pi.impact ≠ max_commit_impact then
      { prImpact := pr_impact, commitImpacts := commit_impacts,
        maxCommitImpact := max_commit_impact, finalImpact := some pi,
        warning := some ("Impact from PR title (" ++ pi.impact.name ++
          ") differs from maximum commit impact (" ++ max_commit_impact.name ++
          "). Using PR title impact (" ++ pi.impact.name ++ ") for version bump.") }
    else
      { prImpact := pr_impact, commitImpacts := commit_impacts,
        maxCommitImpact := max_commit_impact, finalImpact := some pi,
        warning := none }
  | none =>
    { prImpact := none, commitImpacts := commit_impacts,
      maxCommitImpact := max_commit_impact,
      finalImpact := commit_impacts.find? (fun c => c.impact = max_commit_impact),
      warning := none }

/-- `getImpactFromGithub(pr, commits)` proper: classify the PR and, one by
one, the commits (inconclusive ones are dropped), then aggregate. -/
def getImpactFromGithub (pr : ChangeText) (commits : List ChangeText) : ImpactResult :=
  aggregateImpacts (getConventionalImpact pr.title pr.body)
    (commits.filterMap (fun c => getConventionalImpact c.title c.body))

/-! ## Release-candidate tag scan (src/github.ts, `getAllRCsSinceLatestRelease`) -/

/-- The tag loop of `getAllRCsSinceLatestRelease`, over the newest-first
sequence of tag names the paged `listTags` calls produce.  Tags that fail to
parse, carry no (truthy) prerelease, or whose lower-cased prerelease lacks the
substring `rc` are skipped; an `rc` tag strictly older than the baseline ends
the scan (the early `return results` also abandons all later pages, which here
is the rest of the list); an `rc` tag equal to the baseline is skipped; a
strictly newer one is retained. -/
def getAllRCsScan (baseline : SemanticVersion) : List String → List String
  | [] => []
  | name :: rest =>
    match SemanticVersion.parse name with
    | none => getAllRCsScan baseline rest
    | some parsed =>
      if !jsTruthy parsed.prerelease then getAllRCsScan baseline rest
      else if !strContains (strToLower (optStr parsed.prerelease)) "rc" then
        getAllRCsScan baseline rest
      else
        let cmp := SemanticVersion.compare parsed baseline
        if cmp < 0 then []
        else if cmp = 0 then getAllRCsScan baseline rest
        else name :: getAllRCsScan baseline rest

/-! ## Deduplicating async cache (src/utils.ts `LRUCache`, src/github.ts users)

The cache maps string keys to in-flight promises.  `Map` iteration order is
insertion order, modelled by an association list with unique keys appended at
the back.  The source `get` has a special case for a stored value that is
literally `undefined`; the promise values stored by the github helpers are
never `undefined`, so that branch is vacuous here. -/

/-- The `LRUCache` backing map. -/
structure LRUCache (V : Type) where
  entries : List (String × V)

/-- Plain `Map` lookup (`map.has` / `map.get`). -/
def LRUCache.lookup {V : Type} (c : LRUCache V) (key : String) : Option V :=
  (c.entries.find? (fun e => e.1 == key)).map (·.2)

/-- `Map.delete`: remove the key's entry, a no-op when absent. -/
def LRUCache.erase {V : Type} (c : LRUCache V) (key : String) : LRUCache V :=
  ⟨c.entries.filter (fun e => e.1 != key)⟩

/-- `LRUCache.get`: return the stored value, re-inserting its entry at the
back to mark it most recently used. -/
def LRUCache.get {V : Type} (c : LRUCache V) (key : String) : Option V × LRUCache V :=
  match c.lookup key with
  | none => (none, c)
  | some v => (some v, ⟨(c.erase key).entries ++ [(key, v)]⟩)

/-- `LRUCache.set`: delete any prior entry, then insert at the back. -/
def LRUCache.set {V : Type} (c : LRUCache V) (key : String) (v : V) : LRUCache V :=
  ⟨(c.erase key).entries ++ [(key, v)]⟩

/-- `LRUCache.delete`. -/
def LRUCache.delete {V : Type} (c : LRUCache V) (key : String) : LRUCache V :=
  c.erase key

/-- State of the module-level `GH_CACHE` and its collaborator, for the
single-threaded cooperative execution the cache users run under.  Promises
are identified by the order of their creation; `listTagsCalls` counts the
underlying collaborator invocations. -/
structure GhCacheState where
  cache : LRUCache Nat
  nextPromise : Nat
  listTagsCalls : Nat

/-- One `getLatestTag` request reaching the cache block: `GH_CACHE.get(key)`;
on a miss, issue the underlying `listTags` call, register the wrapped promise
under the key, and hand that promise back; on a hit, hand back the cached
in-flight promise without issuing anything. -/
def getLatestTagRequest (key : String) (st : GhCacheState) : Nat × GhCacheState :=
  match st.cache.get key with
  | (some p, c2) => (p, { st with cache := c2 })
  | (none, c2) =>
    let p := st.nextPromise
    (p, { cache := c2.set key p, nextPromise := p + 1,
          listTagsCalls := st.listTagsCalls + 1 })

/-- Settlement (success or failure) of the registered promise: the
`p.finally(() => GH_CACHE.delete(cacheKey))` handler runs and removes the
entry. -/
def promiseSettles (key : String) (st : GhCacheState) : GhCacheState :=
  { st with cache := st.cache.delete key }

/-! ## Specification-side definitions

The definitions below transcribe sentences of the specification (not the
source); the refinement theorems compare them with the embedded code. -/

/-- Three-way integer comparison, for the spec's lexicographic triple order. -/
def intCmp (a b : Int) : Ordering :=
  if a < b then .lt else if b < a then .gt else .eq

/-- Three-way natural comparison. -/
def natCmp (a b : Nat) : Ordering :=
  if a < b then .lt else if b < a then .gt else .eq

/-- An `Ordering` as the `{-1, 0, 1}` result `compare` returns. -/
def ordToInt : Ordering → Int
  | .lt => -1
  | .eq => 0
  | .gt => 1

/-- Spec §4.1, one identifier: "numeric identifiers compare numerically and
are always ordered below alphanumeric identifiers"; distinct alphanumeric
identifiers order as strings. -/
def specIdentCmp (x y : List Char) : Ordering :=
  match isNumericIdentL x, isNumericIdentL y with
  | true, true => natCmp (digitsToNat x) (digitsToNat y)
  | true, false => .lt
  | false, true => .gt
  | false, false => if x = y then .eq else if listLt x y then .lt else .gt

/-- Spec §4.1, identifier lists left-to-right: "a missing identifier (shorter
list) sorts lower than present ones; equal-length all-equal lists compare
equal". -/
def specIdentListCmp : List (List Char) → List (List Char) → Ordering
  | [], [] => .eq
  | [], _ :: _ => .lt
  | _ :: _, [] => .gt
  | x :: xs, y :: ys =>
    match specIdentCmp x y with
    | .eq => specIdentListCmp xs ys
    | o => o

/-- Spec §4.1 `compare`: "compares the numeric triple lexicographically
first.  If equal, a version with no prerelease is greater than one with a
prerelease.  If both have prereleases, compare identifier lists
left-to-right." -/
def compareSpec (a b : SemanticVersion) : Int :=
  match intCmp a.major b.major with
  | .lt => -1
  | .gt => 1
  | .eq =>
    match intCmp a.minor b.minor with
    | .lt => -1
    | .gt => 1
    | .eq =>
      match intCmp a.patch b.patch with
      | .lt => -1
      | .gt => 1
      | .eq =>
        match jsTruthy a.prerelease, jsTruthy b.prerelease with
        | false, false => 0
        | false, true => 1
        | true, false => -1
        | true, true =>
          ordToInt (specIdentListCmp
            (splitOnCh '.' (optStr a.prerelease).data)
            (splitOnCh '.' (optStr b.prerelease).data))

/-- Spec §4.1 `nextReleaseCandidateIndex`, the kept tags' ordinals: "parse
each tag name; keep only those whose numeric triple equals `base`'s and whose
prerelease contains a case-insensitive `rc` marker; from each kept tag
extract the first digit run following the marker". -/
def specRcOrdinals (base : SemanticVersion) (tagNames : List String) : List Nat :=
  tagNames.filterMap (rcOrdinalOf base)

/-- Spec §4.1 `nextReleaseCandidateIndex` result: "return `max(extracted) +
1`, or `0` if none match". -/
def specNextRcIndex (base : SemanticVersion) (tagNames : List String) : Int :=
  match specRcOrdinals base tagNames with
  | [] => 0
  | n :: ns => ((ns.foldl Nat.max n : Nat) : Int) + 1

/-- Whether a tag name parses to a version with a (truthy) prerelease whose
lower-cased text contains `rc` — the scan's retention class. -/
def isRcTagName (name : String) : Bool :=
  match SemanticVersion.parse name with
  | none => false
  | some parsed =>
    jsTruthy parsed.prerelease &&
      strContains (strToLower (optStr parsed.prerelease)) "rc"

/-- The comparison the scan applies to an rc tag, when it is one. -/
def rcTagCmp (baseline : SemanticVersion) (name : String) : Option Int :=
  match SemanticVersion.parse name with
  | none => none
  | some parsed =>
    if jsTruthy parsed.prerelease &&
        strContains (strToLower (optStr parsed.prerelease)) "rc" then
      some (SemanticVersion.compare parsed baseline)
    else none

/-- The release-candidate scan exactly as the claim words it: "stops at the
first tag whose parsed version compares strictly older than the baseline,
retaining exactly the rc-prerelease tags encountered before that point". -/
def claimRetainedRCs (baseline : SemanticVersion) (tags : List String) : List String :=
  (tags.takeWhile (fun name =>
    match SemanticVersion.parse name with
    | none => true
    | some parsed => !decide (SemanticVersion.compare parsed baseline < 0))).filter
    isRcTagName

/-- The scan as amended: only an rc-prerelease tag strictly older than the
baseline stops it, and it retains exactly the rc-prerelease tags strictly
newer than the baseline seen before that point. -/
def amendedRetainedRCs (baseline : SemanticVersion) (tags : List String) : List String :=
  (tags.takeWhile (fun name =>
    match rcTagCmp baseline name with
    | none => true
    | some c => !decide (c < 0))).filter
    (fun name =>
      match rcTagCmp baseline name with
      | none => false
      | some c => decide (0 < c))

/-! ## Supporting lemmas -/

theorem find_append_of_none {α : Type} (p : α → Bool) (l1 l2 : List α)
    (h : l1.find? p = none) : (l1 ++ l2).find? p = l2.find? p := by
  induction l1 with
  | nil => rfl
  | cons a t ih =>
    cases hpa : p a with
    | true => simp [List.find?, hpa] at h
    | false =>
      simp only [List.find?, hpa] at h
      simp only [List.cons_append, List.find?, hpa]
      exact ih h

theorem find_filter_ne {V : Type} (l : List (String × V)) (k : String) :
    (l.filter (fun e => e.1 != k)).find? (fun e => e.1 == k) = none := by
  induction l with
  | nil => rfl
  | cons e t ih =>
    by_cases he : e.1 = k
    · simp [List.filter_cons, he, ih]
    · simp [List.filter_cons, he, List.find?, ih]

theorem LRUCache.lookup_erase {V : Type} (c : LRUCache V) (k : String) :
    (c.erase k).lookup k = none := by
  simp [LRUCache.lookup, LRUCache.erase, find_filter_ne]

theorem LRUCache.lookup_set_self {V : Type} (c : LRUCache V) (k : String) (v : V) :
    (c.set k v).lookup k = some v := by
  simp only [LRUCache.lookup, LRUCache.set, LRUCache.erase]
  rw [find_append_of_none _ _ _ (find_filter_ne c.entries k)]
  simp [List.find?]

/-! ## Claim theorems -/

/-- C1: the packaging-format parser cannot satisfy the spec's examples — its
regex carries the global flag, so the matcher result never has a `groups`
property and `parse_pep440` returns an absent result on every input,
including the two examples the spec (and the repository's own pep440 test
suite) expect to succeed. -/
theorem parse_pep440_always_absent :
    (∀ s : String, parse_pep440 s = none) ∧
    parse_pep440 "1.2.3a1" = none ∧
    parse_pep440 "v0.1.0.dev3+meta" = none := by
  refine ⟨fun s => ?_, rfl, rfl⟩
  unfold parse_pep440
  cases pep440GlobalMatch s <;> rfl

/-- C9: with a key not in the cache, two requests for it while the registered
computation is outstanding observe the same promise handle and issue exactly
one underlying `listTags` call; settlement of the registered promise removes
the entry, so a later request issues the work again, on a fresh handle. -/
theorem cache_dedup_and_reissue (key : String) (st : GhCacheState)
    (h : st.cache.lookup key = none) :
    (getLatestTagRequest key st).1 =
      (getLatestTagRequest key (getLatestTagRequest key st).2).1 ∧
    (getLatestTagRequest key (getLatestTagRequest key st).2).2.listTagsCalls =
      st.listTagsCalls + 1 ∧
    (promiseSettles key
        (getLatestTagRequest key (getLatestTagRequest key st).2).2).cache.lookup key =
      none ∧
    (getLatestTagRequest key (promiseSettles key
        (getLatestTagRequest key (getLatestTagRequest key st).2).2)).2.listTagsCalls =
      st.listTagsCalls + 2 ∧
    (getLatestTagRequest key (promiseSettles key
        (getLatestTagRequest key (getLatestTagRequest key st).2).2)).1 ≠
      (getLatestTagRequest key st).1 := by
  have h1 : getLatestTagRequest key st =
      (st.nextPromise,
        { cache := st.cache.set key st.nextPromise, nextPromise := st.nextPromise + 1,
          listTagsCalls := st.listTagsCalls + 1 }) := by
    simp [getLatestTagRequest, LRUCache.get, h]
  rw [h1]
  have h2 : (st.cache.set key st.nextPromise).lookup key = some st.nextPromise :=
    LRUCache.lookup_set_self ..
  simp only [getLatestTagRequest, LRUCache.get, h2, promiseSettles, LRUCache.delete,
    LRUCache.lookup_erase]
  refine ⟨trivial, trivial, trivial, trivial, ?_⟩
  omega

/-- C9 witness: the theorem applied to the key `getLatestTag` uses, starting
from the empty cache. -/
theorem cache_dedup_and_reissue_witness :
    (⟨⟨[]⟩, 0, 0⟩ : GhCacheState).cache.lookup "latestTag:o/r" = none ∧
    (getLatestTagRequest "latestTag:o/r" (⟨⟨[]⟩, 0, 0⟩ : GhCacheState)).1 =
      (getLatestTagRequest "latestTag:o/r"
        (getLatestTagRequest "latestTag:o/r" (⟨⟨[]⟩, 0, 0⟩ : GhCacheState)).2).1 :=
  ⟨rfl, (cache_dedup_and_reissue "latestTag:o/r" ⟨⟨[]⟩, 0, 0⟩ rfl).1⟩

/-- C10 counterexample: an empty prerelease string violates the prerelease
grammar, yet construction succeeds — JavaScript truthiness skips the check
for `""` — so construction failure is not equivalent to the supplied string
violating its grammar. -/
theorem construction_empty_prerelease_accepted :
    SemanticVersion.make 1 0 0 (some "") none =
      .ok ⟨1, 0, 0, some "", none⟩ ∧
    validPrerelease "" = false :=
  ⟨rfl, rfl⟩

/-- C7 (code bug): the mapped keys and the failure cases behave as claimed —
`feat: x` is Minor, the breaking marker forces Major also over a
NoImpact-mapped type (`chore!`), and wrong casing (`Feat:`), a hyphenated
type (`feat-prod:`) and a genuinely unknown type (`unknown:`, the repository
test's own case) yield an absent result — but the claim's universal failure
for every unmapped type token is false of the program: the JavaScript `in`
operator traverses the prototype chain, so the inherited `Object.prototype`
name `constructor` passes the membership test and `constructor!: x`
classifies to Major instead of failing, while `toString: x` returns a
classification whose impact is the inherited `toString` function — not an
`Impact` member, contradicting the declared `ParsedCommitInfo.impact: Impact`
type and bypassing the code's own unrecognized-type error path. -/
theorem classify_title_prototype_chain :
    ParseConventionalTitleFull "constructor!: x" =
      some ⟨"constructor", .enumVal .MAJOR⟩ ∧
    ParseConventionalTitleFull "toString: x" =
      some ⟨"toString", .protoMember "toString"⟩ ∧
    ParseConventionalTitleFull "feat: x" = some ⟨"feat", .enumVal .MINOR⟩ ∧
    ParseConventionalTitleFull "feat!: x" = some ⟨"feat", .enumVal .MAJOR⟩ ∧
    ParseConventionalTitleFull "chore!: x" = some ⟨"chore", .enumVal .MAJOR⟩ ∧
    ParseConventionalTitleFull "Feat: x" = none ∧
    ParseConventionalTitleFull "feat-prod: x" = none ∧
    ParseConventionalTitleFull "unknown: x" = none := by decide

/-- C4 (code bug): title-first resolution behaves as claimed on its failure
and own-key cases — a failing title (`Feat:`) is final despite a breaking
body, a mapped title is raised to Major exactly by the marker (`feat:` and
`chore:` with the marker, `chore:` without it) — but the claim's `exactly
when` is false of the program for a prototype-classified title: for
`valueOf: x` the stored title impact is the inherited `valueOf` function, the
raise guard `body_impact > impact.impact` compares the number 3 against a
function (`NaN`, hence false), and the marker body does not raise the
impact. -/
theorem resolve_prototype_not_raised :
    getConventionalImpactFull "valueOf: x" (some "BREAKING CHANGE: y") =
      some ⟨"valueOf", .protoMember "valueOf"⟩ ∧
    getConventionalImpactFull "Feat: x" (some "BREAKING CHANGE: y") = none ∧
    getConventionalImpactFull "feat: x" (some "BREAKING CHANGE: y") =
      some ⟨"feat", .enumVal .MAJOR⟩ ∧
    getConventionalImpactFull "chore: x" (some "BREAKING CHANGE: y") =
      some ⟨"chore", .enumVal .MAJOR⟩ ∧
    getConventionalImpactFull "chore: x" (some "no marker") =
      some ⟨"chore", .enumVal .NOIMPACT⟩ := by decide

/-- C5 counterexample: the description classifies (`feat: x` → Minor) and no
commit yields a classification, yet a warning is recorded — the missing
commit-set impact is represented as `NOIMPACT`, which differs from Minor —
contradicting the claim that no warning is recorded when only one side is
present. -/
theorem aggregate_warning_without_commit_impact :
    (getImpactFromGithub ⟨"feat: x", none⟩ []).prImpact = some ⟨"feat", .MINOR⟩ ∧
    (getImpactFromGithub ⟨"feat: x", none⟩ []).commitImpacts = [] ∧
    (getImpactFromGithub ⟨"feat: x", none⟩ []).warning ≠ none := by
  exact ⟨by decide, by decide, by decide⟩

theorem aggregateImpacts_props (pi? : Option ParsedCommitInfo)
    (cis : List ParsedCommitInfo) :
    (aggregateImpacts pi? cis).prImpact = pi? ∧
    (aggregateImpacts pi? cis).commitImpacts = cis ∧
    ((aggregateImpacts pi? cis).commitImpacts = [] →
      (aggregateImpacts pi? cis).maxCommitImpact = Impact.NOIMPACT) ∧
    (∀ pi, (aggregateImpacts pi? cis).prImpact = some pi →
      (aggregateImpacts pi? cis).finalImpact = some pi ∧
      ((aggregateImpacts pi? cis).warning ≠ none ↔
        pi.impact ≠ (aggregateImpacts pi? cis).maxCommitImpact)) ∧
    ((aggregateImpacts pi? cis).prImpact = none →
      (aggregateImpacts pi? cis).warning = none ∧
      (aggregateImpacts pi? cis).finalImpact =
        (aggregateImpacts pi? cis).commitImpacts.find?
          (fun c => c.impact = (aggregateImpacts pi? cis).maxCommitImpact)) ∧
    ((aggregateImpacts pi? cis).prImpact = none →
      (aggregateImpacts pi? cis).commitImpacts = [] →
      (aggregateImpacts pi? cis).finalImpact = none) := by
  cases pi? with
  | none =>
    refine ⟨rfl, rfl, ?_, ?_, ?_, ?_⟩
    · intro h
      have h2 : cis = [] := h
      subst h2
      rfl
    · intro pi hpi
      have h2 : (none : Option ParsedCommitInfo) = some pi := hpi
      exact Option.noConfusion h2
    · intro _
      exact ⟨rfl, rfl⟩
    · intro _ h
      have h2 : cis = [] := h
      subst h2
      rfl
  | some pi0 =>
    have hmax : (aggregateImpacts (some pi0) cis).maxCommitImpact =
        (match cis with
          | [] => Impact.NOIMPACT
          | c :: cs => (cs.map (·.impact)).foldl maxImpact c.impact) := by
      simp only [aggregateImpacts]
      split <;> rfl
    have hpr : (aggregateImpacts (some pi0) cis).prImpact = some pi0 := by
      simp only [aggregateImpacts]
      split <;> rfl
    have hci : (aggregateImpacts (some pi0) cis).commitImpacts = cis := by
      simp only [aggregateImpacts]
      split <;> rfl
    have hfin : (aggregateImpacts (some pi0) cis).finalImpact = some pi0 := by
      simp only [aggregateImpacts]
      split <;> rfl
    have hwarn : ((aggregateImpacts (some pi0) cis).warning ≠ none ↔
        pi0.impact ≠ (aggregateImpacts (some pi0) cis).maxCommitImpact) := by
      rw [hmax]
      simp only [aggregateImpacts]
      split
      · rename_i hcond
        exact iff_of_true (by simp) hcond
      · rename_i hcond
        exact iff_of_false (by simp) hcond
    refine ⟨hpr, hci, ?_, ?_, ?_, ?_⟩
    · intro h
      rw [hci] at h
      subst h
      rw [hmax]
    · intro pi hpi
      rw [hpr, Option.some_inj] at hpi
      subst hpi
      exact ⟨hfin, hwarn⟩
    · intro h
      rw [hpr] at h
      exact Option.noConfusion h
    · intro h _
      rw [hpr] at h
      exact Option.noConfusion h

/-- C5 amended: the commit-set impact defaults to `NOIMPACT` when no commit
classifies; a classified description always supplies the final impact, with a
warning recorded exactly when its impact differs from the (defaulted) maximum
commit impact — so a warning can appear even when no commit classifies; an
unclassified description falls back, without warning, to the first commit
achieving the maximum; when neither side classifies there is no final impact
(and the caller skips the version bump). -/
theorem aggregate_resolution (pr : ChangeText) (commits : List ChangeText) :
    (getImpactFromGithub pr commits).prImpact = getConventionalImpact pr.title pr.body ∧
    (getImpactFromGithub pr commits).commitImpacts =
      commits.filterMap (fun c => getConventionalImpact c.title c.body) ∧
    ((getImpactFromGithub pr commits).commitImpacts = [] →
      (getImpactFromGithub pr commits).maxCommitImpact = Impact.NOIMPACT) ∧
    (∀ pi, (getImpactFromGithub pr commits).prImpact = some pi →
      (getImpactFromGithub pr commits).finalImpact = some pi ∧
      ((getImpactFromGithub pr commits).warning ≠ none ↔
        pi.impact ≠ (getImpactFromGithub pr commits).maxCommitImpact)) ∧
    ((getImpactFromGithub pr commits).prImpact = none →
      (getImpactFromGithub pr commits).warning = none ∧
      (getImpactFromGithub pr commits).finalImpact =
        (getImpactFromGithub pr commits).commitImpacts.find?
          (fun c => c.impact = (getImpactFromGithub pr commits).maxCommitImpact)) ∧
    ((getImpactFromGithub pr commits).prImpact = none →
      (getImpactFromGithub pr commits).commitImpacts = [] →
      (getImpactFromGithub pr commits).finalImpact = none) := by
  simp only [getImpactFromGithub]
  exact aggregateImpacts_props _ _

/-- C5 witness: the description-classified conjunct applied at a concrete
description and commit list where both sides classify and disagree. -/
theorem aggregate_resolution_witness :
    (getImpactFromGithub ⟨"feat: x", none⟩ [⟨"fix: y", none⟩]).finalImpact =
      some ⟨"feat", .MINOR⟩ ∧
    ((getImpactFromGithub ⟨"feat: x", none⟩ [⟨"fix: y", none⟩]).warning ≠ none ↔
      (⟨"feat", Impact.MINOR⟩ : ParsedCommitInfo).impact ≠
        (getImpactFromGithub ⟨"feat: x", none⟩ [⟨"fix: y", none⟩]).maxCommitImpact) :=
  (aggregate_resolution ⟨"feat: x", none⟩ [⟨"fix: y", none⟩]).2.2.2.1
    ⟨"feat", .MINOR⟩ (by decide)

theorem listLt_asymm (a : List Char) :
    ∀ b, listLt a b = true → listLt b a = false := by
  induction a with
  | nil =>
    intro b _
    cases b <;> rfl
  | cons x xs ih =>
    intro b h
    cases b with
    | nil => simp [listLt] at h
    | cons y ys =>
      simp only [listLt] at h ⊢
      rcases lt_trichotomy x y with hxy | hxy | hxy
      · simp [hxy, lt_asymm hxy]
      · subst hxy
        simp only [lt_irrefl, if_false, ite_false, if_neg (lt_irrefl x)] at h ⊢
        exact ih ys h
      · simp [hxy, lt_asymm hxy] at h

theorem listLt_connex (a : List Char) :
    ∀ b, a ≠ b → listLt a b = false → listLt b a = true := by
  induction a with
  | nil =>
    intro b hne h
    cases b with
    | nil => exact absurd rfl hne
    | cons y ys => simp [listLt] at h
  | cons x xs ih =>
    intro b hne h
    cases b with
    | nil => rfl
    | cons y ys =>
      simp only [listLt] at h ⊢
      rcases lt_trichotomy x y with hxy | hxy | hxy
      · simp [hxy] at h
      · subst hxy
        simp only [lt_irrefl, if_false, ite_false, if_neg (lt_irrefl x)] at h ⊢
        refine ih ys ?_ h
        intro he
        exact hne (by rw [he])
      · simp [hxy, lt_asymm hxy]

theorem cmpParts_eq_spec (xs : List (List Char)) :
    ∀ ys, cmpParts xs ys = ordToInt (specIdentListCmp xs ys) := by
  induction xs with
  | nil =>
    intro ys
    cases ys <;> rfl
  | cons x xs ih =>
    intro ys
    cases ys with
    | nil => rfl
    | cons y ys2 =>
      simp only [cmpParts, specIdentListCmp, specIdentCmp]
      cases hx : isNumericIdentL x <;> cases hy : isNumericIdentL y
      · -- both alphanumeric
        simp only [Bool.false_and, Bool.and_false, Bool.not_false, Bool.false_eq_true,
          if_false, ite_false]
        by_cases hxy : x = y
        · subst hxy
          simp [ih ys2]
        · rcases hlt : listLt x y with _ | _
          · simp [hxy, listLt_connex x y hxy hlt, ordToInt]
          · simp [hxy, listLt_asymm x y hlt, ordToInt]
      · -- x alphanumeric, y numeric
        simp [hx, hy, ordToInt]
      · -- x numeric, y alphanumeric
        simp [hx, hy, ordToInt]
      · -- both numeric
        simp only [Bool.true_and, Bool.and_true, Bool.not_true, if_true, ite_true]
        rcases lt_trichotomy (digitsToNat x) (digitsToNat y) with hn | hn | hn
        · simp [natCmp, Nat.ne_of_lt hn, hn, Nat.lt_asymm hn, ordToInt]
        · simp [natCmp, hn, ih ys2]
        · simp [natCmp, Nat.ne_of_gt hn, hn, Nat.lt_asymm hn, ordToInt]

theorem compare_eq_compareSpec (a b : SemanticVersion) :
    SemanticVersion.compare a b = compareSpec a b := by
  unfold SemanticVersion.compare compareSpec
  rcases lt_trichotomy a.major b.major with h1 | h1 | h1
  · simp [intCmp, ne_of_lt h1, h1, lt_asymm h1, ordToInt]
  · rcases lt_trichotomy a.minor b.minor with h2 | h2 | h2
    · simp [intCmp, h1, ne_of_lt h2, h2, lt_asymm h2, ordToInt]
    · rcases lt_trichotomy a.patch b.patch with h3 | h3 | h3
      · simp [intCmp, h1, h2, ne_of_lt h3, h3, lt_asymm h3, ordToInt]
      · simp only [intCmp, h1, h2, h3, ne_eq, not_true_eq_false, if_false, ite_false,
          lt_irrefl, if_neg (lt_irrefl b.major), if_neg (lt_irrefl b.minor),
          if_neg (lt_irrefl b.patch), ite_self]
        cases jsTruthy a.prerelease <;> cases jsTruthy b.prerelease <;>
          simp [cmpParts_eq_spec, ordToInt]
      · simp [intCmp, h1, h2, ne_of_gt h3, h3, lt_asymm h3, ordToInt]
    · simp [intCmp, h1, ne_of_gt h2, h2, lt_asymm h2, ordToInt]
  · simp [intCmp, ne_of_gt h1, h1, lt_asymm h1, ordToInt]

theorem specIdentListCmp_refl (l : List (List Char)) :
    specIdentListCmp l l = .eq := by
  induction l with
  | nil => rfl
  | cons x xs ih =>
    have hx : specIdentCmp x x = .eq := by
      unfold specIdentCmp
      cases isNumericIdentL x
      · simp
      · simp [natCmp]
    simp [specIdentListCmp, hx, ih]

theorem compareSpec_refl (v : SemanticVersion) : compareSpec v v = 0 := by
  unfold compareSpec
  simp only [intCmp, lt_irrefl, if_false, ite_false, if_neg (lt_irrefl v.major),
    if_neg (lt_irrefl v.minor), if_neg (lt_irrefl v.patch)]
  cases jsTruthy v.prerelease <;> simp [specIdentListCmp_refl, ordToInt]

/-- C2: `compare` realises the spec's ordering — triple lexicographically
first, release above prerelease on equal triples, then the identifier-list
order with numeric-below-alphanumeric and shorter-sorts-lower — and is
reflexive: `compare v v = 0` for every version. -/
theorem compare_follows_spec :
    (∀ a b : SemanticVersion, SemanticVersion.compare a b = compareSpec a b) ∧
    (∀ v : SemanticVersion, SemanticVersion.compare v v = 0) :=
  ⟨compare_eq_compareSpec, fun v => by
    rw [compare_eq_compareSpec]
    exact compareSpec_refl v⟩

theorem foldl_nextRcStep (base : SemanticVersion) (tags : List String) :
    ∀ acc : Int, tags.foldl (nextRcStep base) acc =
      (tags.filterMap (rcOrdinalOf base)).foldl
        (fun (m : Int) (n : Nat) => if m < (n : Int) then (n : Int) else m) acc := by
  induction tags with
  | nil =>
    intro acc
    rfl
  | cons t ts ih =>
    intro acc
    simp only [List.foldl_cons, List.filterMap_cons]
    cases h : rcOrdinalOf base t with
    | none =>
      simp only [nextRcStep, h]
      exact ih acc
    | some n =>
      simp only [nextRcStep, h, List.foldl_cons]
      exact ih _

theorem foldl_intmax_cast (ns : List Nat) : ∀ m : Nat,
    ns.foldl (fun (a : Int) (n : Nat) => if a < (n : Int) then (n : Int) else a) (m : Nat) =
      ((ns.foldl Nat.max m : Nat) : Int) := by
  induction ns with
  | nil =>
    intro m
    rfl
  | cons n ns ih =>
    intro m
    simp only [List.foldl_cons]
    have hstep : (if (m : Int) < (n : Int) then (n : Int) else (m : Int)) =
        ((Nat.max m n : Nat) : Int) := by
      split_ifs with h
      · have hmn : m < n := by exact_mod_cast h
        have hmax : m.max n = n := max_eq_right hmn.le
        rw [hmax]
      · have hmn : ¬ m < n := by exact_mod_cast h
        have hmax : m.max n = m := max_eq_left (by omega)
        rw [hmax]
    rw [hstep]
    exact ih _

theorem nextRcIndex_eq_spec (base : SemanticVersion) (tags : List String) :
    SemanticVersion.nextRcIndex base tags = specNextRcIndex base tags := by
  unfold SemanticVersion.nextRcIndex specNextRcIndex specRcOrdinals
  rw [foldl_nextRcStep]
  cases h : tags.filterMap (rcOrdinalOf base) with
  | nil => rfl
  | cons n ns =>
    simp only [List.foldl_cons]
    rw [if_pos (by omega : (-1 : Int) < (n : Nat))]
    rw [foldl_intmax_cast ns n]

/-- C8: `nextRcIndex` parses each tag, keeps those matching `base`'s triple
whose prerelease carries a case-insensitive `rc` marker with a digit run,
and returns the maximum extracted ordinal plus one — `0` when no tag
qualifies; in particular the spec's example yields `3`. -/
theorem nextRcIndex_follows_spec :
    (∀ base tags, SemanticVersion.nextRcIndex base tags = specNextRcIndex base tags) ∧
    SemanticVersion.nextRcIndex ⟨1, 2, 3, none, none⟩
      ["v1.2.3-rc0", "v1.2.3-rc2", "v1.2.3-rc1"] = 3 :=
  ⟨nextRcIndex_eq_spec, by decide⟩

theorem getAllRCsScan_eq_amended (baseline : SemanticVersion) (tags : List String) :
    getAllRCsScan baseline tags = amendedRetainedRCs baseline tags := by
  induction tags with
  | nil => rfl
  | cons name rest ih =>
    cases hp : SemanticVersion.parse name with
    | none =>
      have hr : rcTagCmp baseline name = none := by
        simp [rcTagCmp, hp]
      simp [getAllRCsScan, hp, amendedRetainedRCs, List.takeWhile_cons, hr,
        List.filter_cons, ih]
    | some parsed =>
      cases ht : jsTruthy parsed.prerelease with
      | false =>
        have hr : rcTagCmp baseline name = none := by
          simp [rcTagCmp, hp, ht]
        simp [getAllRCsScan, hp, ht, amendedRetainedRCs, List.takeWhile_cons, hr,
          List.filter_cons, ih]
      | true =>
        cases hc2 : strContains (strToLower (optStr parsed.prerelease)) "rc" with
        | false =>
          have hr : rcTagCmp baseline name = none := by
            simp [rcTagCmp, hp, ht, hc2]
          simp [getAllRCsScan, hp, ht, hc2, amendedRetainedRCs, List.takeWhile_cons, hr,
            List.filter_cons, ih]
        | true =>
          have hr : rcTagCmp baseline name =
              some (SemanticVersion.compare parsed baseline) := by
            simp [rcTagCmp, hp, ht, hc2]
          rcases lt_trichotomy (SemanticVersion.compare parsed baseline) 0 with hc | hc | hc
          · simp [getAllRCsScan, hp, ht, hc2, hc, amendedRetainedRCs,
              List.takeWhile_cons, hr]
          · simp [getAllRCsScan, hp, ht, hc2, hc, amendedRetainedRCs,
              List.takeWhile_cons, hr, List.filter_cons, ih]
          · simp [getAllRCsScan, hp, ht, hc2, not_lt_of_gt hc, ne_of_gt hc, hc,
              amendedRetainedRCs, List.takeWhile_cons, hr, List.filter_cons, ih]

/-- C6 counterexample: a non-rc tag older than the baseline does not stop the
scan — the code skips it before ever comparing — so a newer rc tag behind it
is still retained, while the claim's stop-at-first-older-tag reading retains
only the tag in front. -/
theorem scan_counterexample :
    getAllRCsScan ⟨1, 0, 0, none, none⟩ ["v1.2.0-rc.1", "v0.9.0", "v1.1.0-rc.1"] =
      ["v1.2.0-rc.1", "v1.1.0-rc.1"] ∧
    claimRetainedRCs ⟨1, 0, 0, none, none⟩ ["v1.2.0-rc.1", "v0.9.0", "v1.1.0-rc.1"] =
      ["v1.2.0-rc.1"] :=
  ⟨by decide, by decide⟩

/-- C6 amended: the scan stops at the first rc-prerelease tag strictly older
than the baseline, retaining exactly the rc-prerelease tags strictly newer
than the baseline seen before that point (equal-to-baseline rc tags are
skipped without stopping; unparseable and non-rc tags are skipped and never
stop the scan); the spec's concrete example holds as stated. -/
theorem scan_follows_amended_spec :
    (∀ baseline tags, getAllRCsScan baseline tags = amendedRetainedRCs baseline tags) ∧
    getAllRCsScan ⟨1, 0, 0, none, none⟩ ["v1.2.0-rc.1", "v0.9.0-rc.1", "v1.1.0-rc.1"] =
      ["v1.2.0-rc.1"] :=
  ⟨getAllRCsScan_eq_amended, by decide⟩

theorem takeWhile_append_stop (p : Char → Bool) (xs ys : List Char)
    (hall : ∀ c ∈ xs, p c = true)
    (hys : ∀ y ts, ys = y :: ts → p y = false) :
    (xs ++ ys).takeWhile p = xs ∧ (xs ++ ys).dropWhile p = ys := by
  induction xs with
  | nil =>
    cases ys with
    | nil => exact ⟨rfl, rfl⟩
    | cons y ts =>
      have hy := hys y ts rfl
      simp [List.takeWhile_cons, List.dropWhile_cons, hy]
  | cons x xs ih =>
    have hx : p x = true := hall x (by simp)
    have h2 := ih (fun c hc => hall c (by simp [hc]))
    simp [List.takeWhile_cons, List.dropWhile_cons, hx, h2.1, h2.2]

theorem natDigits_ok (n : Nat) :
    numeralOk (natDigits n) = true ∧ digitsToNat (natDigits n) = n := by
  induction n using Nat.strong_induction_on with
  | _ n ih =>
    rw [natDigits]
    by_cases h : n < 10
    · rw [dif_pos h]
      refine ⟨?_, ?_⟩ <;> interval_cases n <;> rfl
    · rw [dif_neg h]
      have hn10 : n / 10 < n := Nat.div_lt_self (by omega) (by omega)
      obtain ⟨ih1, ih2⟩ := ih (n / 10) hn10
      have hlt : n % 10 < 10 := Nat.mod_lt _ (by omega)
      have hd : isDigitCh (Char.ofNat ('0'.toNat + n % 10)) = true := by
        generalize hq : n % 10 = q at hlt ⊢
        interval_cases q <;> rfl
      have hdv : digitVal (Char.ofNat ('0'.toNat + n % 10)) = n % 10 := by
        generalize hq : n % 10 = q at hlt ⊢
        interval_cases q <;> rfl
      constructor
      · cases hxs : natDigits (n / 10) with
        | nil =>
          rw [hxs] at ih1
          exact absurd ih1 (by simp [numeralOk])
        | cons c rest =>
          rw [hxs] at ih1 ih2
          simp only [numeralOk, Bool.and_eq_true] at ih1
          obtain ⟨hall, hzero⟩ := ih1
          simp only [List.cons_append, numeralOk, Bool.and_eq_true]
          constructor
          · simp only [List.all_cons, Bool.and_eq_true] at hall ⊢
            refine ⟨hall.1, ?_⟩
            have hd2 : isDigitCh (Char.ofNat (48 + n % 10)) = true := hd
            simp [List.all_append, hall.2, hd2]
          · by_cases hc0 : c = '0'
            · subst hc0
              simp only [Bool.or_eq_true, decide_eq_true_eq] at hzero
              rcases hzero with hzero | hzero
              · exact absurd rfl hzero
              · have hrest : rest = [] := by
                  cases rest with
                  | nil => rfl
                  | cons a b => simp [List.isEmpty] at hzero
                subst hrest
                have : digitsToNat ['0'] = 0 := rfl
                rw [this] at ih2
                omega
            · simp [hc0]
      · simp only [digitsToNat, List.foldl_append, List.foldl_cons, List.foldl_nil]
        simp only [digitsToNat] at ih2
        rw [ih2, hdv]
        omega

theorem numeralOk_all {cs : List Char} (h : numeralOk cs = true) :
    ∀ c ∈ cs, isDigitCh c = true := by
  cases cs with
  | nil => simp [numeralOk] at h
  | cons c rest =>
    simp only [numeralOk, Bool.and_eq_true] at h
    exact fun a ha => List.all_eq_true.mp h.1 a ha

theorem natDigits_ne_nil (n : Nat) : natDigits n ≠ [] := by
  intro h
  have := (natDigits_ok n).1
  rw [h] at this
  simp [numeralOk] at this

theorem digit_ne_v {c : Char} (h : isDigitCh c = true) : c ≠ 'v' := by
  intro he
  rw [he] at h
  exact absurd h (by decide)

theorem splitAtPlus_no_plus (cs : List Char) (h : '+' ∉ cs) :
    splitAtPlus cs = (cs, none) := by
  induction cs with
  | nil => rfl
  | cons c rest ih =>
    simp only [List.mem_cons, not_or] at h
    have hc : ¬ c = '+' := fun he => h.1 he.symm
    simp [splitAtPlus, hc, ih h.2]

theorem splitAtPlus_append (xs ys : List Char) (h : '+' ∉ xs) :
    splitAtPlus (xs ++ '+' :: ys) = (xs, some ys) := by
  induction xs with
  | nil => simp [splitAtPlus]
  | cons c rest ih =>
    simp only [List.mem_cons, not_or] at h
    have hc : ¬ c = '+' := fun he => h.1 he.symm
    simp [splitAtPlus, hc, ih h.2]

theorem splitOnCh_chars (sep : Char) (cs : List Char) :
    ∀ c ∈ cs, c = sep ∨ ∃ g ∈ splitOnCh sep cs, c ∈ g := by
  induction cs with
  | nil => simp
  | cons x rest ih =>
    intro c hc
    rcases List.mem_cons.mp hc with hc | hc
    · subst hc
      by_cases hx : c = sep
      · exact Or.inl hx
      · refine Or.inr ?_
        simp only [splitOnCh, hx, if_false, ite_false]
        cases hrec : splitOnCh sep rest with
        | nil => exact ⟨[c], by simp⟩
        | cons g gs => exact ⟨c :: g, by simp⟩
    · rcases ih c hc with hx | ⟨g, hg, hcg⟩
      · exact Or.inl hx
      · refine Or.inr ?_
        simp only [splitOnCh]
        by_cases hxs : x = sep
        · exact ⟨g, by simp [hxs, List.mem_cons, hg], hcg⟩
        · simp only [hxs, if_false, ite_false]
          cases hrec : splitOnCh sep rest with
          | nil => simp [hrec] at hg
          | cons g2 gs =>
            rw [hrec] at hg
            rcases List.mem_cons.mp hg with hgg | hgg
            · subst hgg
              exact ⟨x :: g, by simp, by simp [hcg]⟩
            · exact ⟨g, by simp [hgg], hcg⟩

theorem isPrereleaseIdentL_chars {g : List Char} (h : isPrereleaseIdentL g = true) :
    ∀ c ∈ g, isIdentCh c = true := by
  cases g with
  | nil => simp [isPrereleaseIdentL] at h
  | cons x rest =>
    simp only [isPrereleaseIdentL, Bool.and_eq_true] at h
    exact fun a ha => List.all_eq_true.mp h.1 a ha

theorem isBuildIdentL_chars {g : List Char} (h : isBuildIdentL g = true) :
    ∀ c ∈ g, isIdentCh c = true := by
  simp only [isBuildIdentL, Bool.and_eq_true] at h
  exact fun a ha => List.all_eq_true.mp h.2 a ha

theorem validPrereleaseL_no_plus {cs : List Char} (h : validPrereleaseL cs = true) :
    '+' ∉ cs := by
  intro hmem
  rcases splitOnCh_chars '.' cs '+' hmem with he | ⟨g, hg, hcg⟩
  · exact absurd he (by decide)
  · have hgood := List.all_eq_true.mp h g hg
    have := isPrereleaseIdentL_chars hgood '+' hcg
    exact absurd this (by decide)

theorem validPrereleaseL_ne_nil {cs : List Char} (h : validPrereleaseL cs = true) :
    cs ≠ [] := by
  intro he
  subst he
  simp [validPrereleaseL, splitOnCh, isPrereleaseIdentL] at h

theorem validBuildmetadataL_ne_nil {cs : List Char} (h : validBuildmetadataL cs = true) :
    cs ≠ [] := by
  intro he
  subst he
  simp [validBuildmetadataL, splitOnCh, isBuildIdentL] at h

theorem dot_data : ("." : String).data = ['.'] := rfl

theorem dash_data : ("-" : String).data = ['-'] := rfl

theorem plus_data : ("+" : String).data = ['+'] := rfl

theorem jsTruthy_of_ne_nil {s : String} (h : s.data ≠ []) : jsTruthy (some s) = true := by
  cases hd : s.data with
  | nil => exact absurd hd h
  | cons a b => simp [jsTruthy, hd]

theorem jsTruthy_none : jsTruthy none = false := rfl

theorem optStr_some (s : String) : optStr (some s) = s := rfl

theorem empty_data : ("" : String).data = [] := rfl

theorem parseCore_consume (A B C : Nat) (tail : List Char)
    (htail : ∀ y ts, tail = y :: ts → isDigitCh y = false) :
    parseCore (natDigits A ++ '.' :: (natDigits B ++ '.' :: (natDigits C ++ tail))) =
      parseTail ⟨(A : Int), (B : Int), (C : Int), none, none⟩ tail := by
  have dotfalse : ∀ (x : List Char) (y : Char) (ts : List Char),
      ('.' :: x) = y :: ts → isDigitCh y = false := by
    intro x y ts h
    injection h with h1 _
    rw [← h1]
    decide
  obtain ⟨okA, valA⟩ := natDigits_ok A
  obtain ⟨okB, valB⟩ := natDigits_ok B
  obtain ⟨okC, valC⟩ := natDigits_ok C
  have tw1 := takeWhile_append_stop isDigitCh (natDigits A)
    ('.' :: (natDigits B ++ '.' :: (natDigits C ++ tail))) (numeralOk_all okA) (dotfalse _)
  have tw2 := takeWhile_append_stop isDigitCh (natDigits B)
    ('.' :: (natDigits C ++ tail)) (numeralOk_all okB) (dotfalse _)
  have tw3 := takeWhile_append_stop isDigitCh (natDigits C) tail (numeralOk_all okC) htail
  simp only [parseCore, tw1.1, tw1.2, tw2.1, tw2.2, tw3.1, tw3.2, okA, okB, okC,
    valA, valB, valC, Bool.not_true, Bool.false_eq_true, if_false, ite_false]

/-- C3: on every version whose numeric triple is non-negative and whose
metadata satisfies their grammars, `parse` is a left inverse of `toString`:
`parse(toString(v))` succeeds and returns `v` itself. -/
theorem parse_render_roundtrip (v : SemanticVersion)
    (hM : 0 ≤ v.major) (hm : 0 ≤ v.minor) (hp : 0 ≤ v.patch)
    (hpre : ∀ s, v.prerelease = some s → validPrerelease s = true)
    (hbuild : ∀ s, v.buildmetadata = some s → validBuildmetadata s = true) :
    SemanticVersion.parse v.render = some v := by
  obtain ⟨M, m, p, pre, build⟩ := v
  simp only at hM hm hp hpre hbuild
  have hMc : ((M.natAbs : Nat) : Int) = M := Int.natAbs_of_nonneg hM
  have hmc : ((m.natAbs : Nat) : Int) = m := Int.natAbs_of_nonneg hm
  have hpc : ((p.natAbs : Nat) : Int) = p := Int.natAbs_of_nonneg hp
  have hMne : ¬ M < 0 := not_lt.mpr hM
  have hmne : ¬ m < 0 := not_lt.mpr hm
  have hpne : ¬ p < 0 := not_lt.mpr hp
  -- the tail of the rendered string, after the numeric triple
  obtain ⟨tail, htail, hdata, htval⟩ :
      ∃ tail : List Char,
        (∀ y ts, tail = y :: ts → isDigitCh y = false) ∧
        (SemanticVersion.render ⟨M, m, p, pre, build⟩).data =
          natDigits M.natAbs ++ '.' :: (natDigits m.natAbs ++ '.' ::
            (natDigits p.natAbs ++ tail)) ∧
        parseTail ⟨(M.natAbs : Int), (m.natAbs : Int), (p.natAbs : Int), none, none⟩
            tail = some ⟨(M.natAbs : Int), (m.natAbs : Int), (p.natAbs : Int),
              pre, build⟩ := by
    cases pre with
    | none =>
      cases build with
      | none =>
        refine ⟨[], ?_, ?_, rfl⟩
        · intro y ts h
          exact absurd h (by simp)
        · simp [SemanticVersion.render, intToString, if_neg hMne, if_neg hmne,
            if_neg hpne, jsTruthy_none, String.data_append, dot_data, empty_data]
      | some b =>
        have hvb : validBuildmetadataL b.data = true := hbuild b rfl
        have hbne := validBuildmetadataL_ne_nil hvb
        refine ⟨'+' :: b.data, ?_, ?_, ?_⟩
        · intro y ts h
          injection h with h1 _
          rw [← h1]
          decide
        · simp [SemanticVersion.render, intToString, if_neg hMne, if_neg hmne,
            if_neg hpne, jsTruthy_none, jsTruthy_of_ne_nil hbne, optStr_some,
            String.data_append, dot_data, plus_data, empty_data]
        · simp [parseTail, hvb]
    | some s =>
      have hvs : validPrereleaseL s.data = true := hpre s rfl
      have hsne := validPrereleaseL_ne_nil hvs
      have hsplus := validPrereleaseL_no_plus hvs
      cases build with
      | none =>
        refine ⟨'-' :: s.data, ?_, ?_, ?_⟩
        · intro y ts h
          injection h with h1 _
          rw [← h1]
          decide
        · simp [SemanticVersion.render, intToString, if_neg hMne, if_neg hmne,
            if_neg hpne, jsTruthy_none, jsTruthy_of_ne_nil hsne, optStr_some,
            String.data_append, dot_data, dash_data, empty_data]
        · simp [parseTail, splitAtPlus_no_plus s.data hsplus, hvs]
      | some b =>
        have hvb : validBuildmetadataL b.data = true := hbuild b rfl
        have hbne := validBuildmetadataL_ne_nil hvb
        refine ⟨'-' :: (s.data ++ '+' :: b.data), ?_, ?_, ?_⟩
        · intro y ts h
          injection h with h1 _
          rw [← h1]
          decide
        · simp [SemanticVersion.render, intToString, if_neg hMne, if_neg hmne,
            if_neg hpne, jsTruthy_of_ne_nil hsne, jsTruthy_of_ne_nil hbne,
            optStr_some, String.data_append, dot_data, dash_data, plus_data]
        · simp [parseTail, splitAtPlus_append s.data b.data hsplus, hvs, hvb]
  -- strip the (absent) leading `v` and consume the three numerals
  obtain ⟨c, t, hct⟩ : ∃ c t, natDigits M.natAbs = c :: t := by
    cases hh : natDigits M.natAbs with
    | nil => exact absurd hh (natDigits_ne_nil _)
    | cons a b => exact ⟨a, b, rfl⟩
  have hcd : isDigitCh c = true :=
    numeralOk_all (natDigits_ok M.natAbs).1 c (by rw [hct]; simp)
  rw [SemanticVersion.parse, hdata, hct]
  simp only [List.cons_append, stripLeadV, if_neg (digit_ne_v hcd)]
  rw [← List.cons_append, ← hct, parseCore_consume M.natAbs m.natAbs p.natAbs tail htail,
    htval, hMc, hmc, hpc]

/-- C3 witness: the round-trip theorem applied to a concrete version with
both metadata fields present, every hypothesis discharged by computation. -/
theorem parse_render_roundtrip_witness :
    SemanticVersion.parse
        (SemanticVersion.render ⟨1, 2, 3, some "alpha.1", some "exp.sha.5114f85"⟩) =
      some ⟨1, 2, 3, some "alpha.1", some "exp.sha.5114f85"⟩ :=
  parse_render_roundtrip ⟨1, 2, 3, some "alpha.1", some "exp.sha.5114f85"⟩
    (by decide) (by decide) (by decide)
    (fun s hs => by rw [Option.some_inj] at hs; rw [← hs]; decide)
    (fun s hs => by rw [Option.some_inj] at hs; rw [← hs]; decide)

/-- C10 amended: construction fails exactly when a truthy (nonempty)
prerelease or buildmetadata string violates its grammar; absent or empty
metadata is never checked, and the numeric triple is not validated at all —
the equivalence holds for every integer triple, negative values included. -/
theorem construction_validation (major minor patch : Int)
    (prerelease buildmetadata : Option String) :
    (SemanticVersion.make major minor patch prerelease buildmetadata =
        .ok ⟨major, minor, patch, prerelease, buildmetadata⟩ ↔
      ((jsTruthy prerelease && !validPrerelease (optStr prerelease)) = false ∧
        (jsTruthy buildmetadata && !validBuildmetadata (optStr buildmetadata)) = false)) ∧
    ((∃ msg, SemanticVersion.make major minor patch prerelease buildmetadata =
        .error msg) ↔
      ((jsTruthy prerelease && !validPrerelease (optStr prerelease)) = true ∨
        (jsTruthy buildmetadata && !validBuildmetadata (optStr buildmetadata)) = true)) := by
  unfold SemanticVersion.make
  by_cases h1 : (jsTruthy prerelease && !validPrerelease (optStr prerelease)) = true
  · simp [h1]
  · by_cases h2 :
      (jsTruthy buildmetadata && !validBuildmetadata (optStr buildmetadata)) = true
    · simp [h1, h2]
    · simp [h1, h2]

end SemVersie
